import Mathlib

/-!
Verification of the `stream-jsonl` library against its specification.

The repository ships only its build configuration and documentation; the
implementation of the streaming pipeline (`streamJsonl`, the line framer,
the backoff scheduler, the retry loop and the `JsonlStreamError` class)
is not present in the sources.  All pipeline definitions below are
therefore modelled from the specification, faithful to its words, and
the claims are settled against this model.

Bytes are modelled as natural numbers (`10` = LF, `13` = CR).  An input
byte stream is a `List Nat`; a chunked delivery of the same stream is a
`List (List Nat)`.  JSON decoding is an external collaborator of the
system, so the pipeline is parameterised by an arbitrary decode function
`List Nat → Option V`.
-/

/-- Modelled from the spec: `FileLocation` is the pair of a non-negative
byte offset and a 1-based count of fully consumed lines; it is the
restart point a caller persists for resumption. -/
structure FileLocation where
  byteOffset : Nat
  line : Nat
deriving DecidableEq, Repr

/-- Modelled from the spec: a `Record` pairs a decoded value with the
location immediately after the line producing the value was fully
consumed. -/
structure Record (V : Type) where
  value : V
  location : FileLocation
deriving DecidableEq, Repr

/-- Modelled from the spec: the terminal signal of one streaming run,
either a clean end of the sequence or a fatal stream error carrying the
last known safe `FileLocation`. -/
inductive Outcome where
  | done : Outcome
  | error (location : FileLocation) : Outcome
deriving DecidableEq, Repr

/-- Helper for the line framer: prepend one non-terminator byte to the
first extracted segment, or to the carry buffer when no complete line
follows. -/
def pushByte (b : Nat) : List (List Nat) × List Nat → List (List Nat) × List Nat
  | ([], c) => ([], b :: c)
  | (l :: ls, c) => ((b :: l) :: ls, c)

/-- Modelled from the spec (Line Framer, missing from the sources):
slice a byte sequence into the complete line segments that precede each
LF byte, plus the carry buffer of unterminated trailing bytes. -/
def splitOnNewline : List Nat → List (List Nat) × List Nat
  | [] => ([], [])
  | b :: rest =>
    if b = 10 then ([] :: (splitOnNewline rest).1, (splitOnNewline rest).2)
    else pushByte b (splitOnNewline rest)

/-- Modelled from the spec: tolerate CRLF by stripping one trailing CR
from a framed line. -/
def stripCR (l : List Nat) : List Nat :=
  if l.getLast? = some 13 then l.dropLast else l

/-- Modelled from the spec (Location Tracker, missing from the sources):
attach to every framed segment the location immediately after it was
fully consumed — the cumulative byte offset including the LF terminator
and the incremented line counter — and return the final location. -/
def locateSegs (start : FileLocation) :
    List (List Nat) → List (List Nat × FileLocation) × FileLocation
  | [] => ([], start)
  | s :: ss =>
    let loc : FileLocation := ⟨start.byteOffset + s.length + 1, start.line + 1⟩
    let (rest, e) := locateSegs loc ss
    ((stripCR s, loc) :: rest, e)

/-- Modelled from the spec: at a clean end of stream a non-empty carry
buffer yields one final line (it has no terminator, so its location
advances by exactly the carry length). -/
def withCarry (p : List (List Nat × FileLocation) × FileLocation) (carry : List Nat) :
    List (List Nat × FileLocation) :=
  if carry = [] then p.1
  else p.1 ++ [(carry, ⟨p.2.byteOffset + carry.length, p.2.line + 1⟩)]

/-- Modelled from the spec: frame a whole byte stream, delivered as one
piece, into located lines. -/
def frameAll (start : FileLocation) (bs : List Nat) : List (List Nat × FileLocation) :=
  let (segs, carry) := splitOnNewline bs
  withCarry (locateSegs start segs) carry

/-- Modelled from the spec (Line Framer, chunked interface): consume the
stream chunk by chunk, appending each chunk to the carry buffer and
extracting the complete leading segments. -/
def frameChunksCore (carry : List Nat) : List (List Nat) → List (List Nat) × List Nat
  | [] => ([], carry)
  | c :: cs =>
    let (ls, k) := splitOnNewline (carry ++ c)
    let (ls2, k2) := frameChunksCore k cs
    (ls ++ ls2, k2)

/-- Modelled from the spec: frame a byte stream delivered as a list of
chunks into located lines. -/
def frameAllChunked (start : FileLocation) (chunks : List (List Nat)) :
    List (List Nat × FileLocation) :=
  let (segs, carry) := frameChunksCore [] chunks
  withCarry (locateSegs start segs) carry

/-- Modelled from the spec (Record Decoder and Stream Orchestrator):
decode each located line in order.  Empty lines advance the location but
yield no record; a decode failure raises a fatal stream error at the
location before the bad line (the end of the last fully consumed
preceding line) and is never retried. -/
def decodeAll {V : Type} (decode : List Nat → Option V) :
    FileLocation → List (List Nat × FileLocation) → List (Record V) × Outcome
  | _, [] => ([], .done)
  | prev, (l, loc) :: rest =>
    if l = [] then decodeAll decode loc rest
    else
      match decode l with
      | none => ([], .error prev)
      | some v =>
        (⟨v, loc⟩ :: (decodeAll decode loc rest).1, (decodeAll decode loc rest).2)

/-- Modelled from the spec: one uninterrupted run of the pipeline over a
byte stream starting at the given location. -/
def run {V : Type} (decode : List Nat → Option V) (start : FileLocation)
    (bs : List Nat) : List (Record V) × Outcome :=
  decodeAll decode start (frameAll start bs)

/-- Modelled from the spec (Stream Orchestrator `streamJsonl`, missing
from the sources): `bs` is the full resource byte stream.  Without a
starting location the run begins at byte 0, line 0.  With a starting
location, if the HEAD-range probe reports range support the fetch begins
at the corresponding byte offset; otherwise it degrades to re-fetching
from the start.  In both cases framed lines are discarded until the
cumulative line counter reaches the starting line, and the starting
location is the last known safe location for error reporting. -/
def streamJsonl {V : Type} (decode : List Nat → Option V)
    (startingLocation : Option FileLocation) (rangeSupported : Bool)
    (bs : List Nat) : List (Record V) × Outcome :=
  match startingLocation with
  | none => run decode ⟨0, 0⟩ bs
  | some s =>
    if rangeSupported then
      decodeAll decode s
        ((frameAll s (bs.drop s.byteOffset)).dropWhile (fun p => p.2.line ≤ s.line))
    else
      decodeAll decode s
        ((frameAll ⟨0, 0⟩ bs).dropWhile (fun p => p.2.line ≤ s.line))

/-- Modelled from the spec (Backoff Scheduler): the retry delay grows
exponentially from `initialDelayMs`, capped at `maxDelayMs`. -/
def nextDelay (initialDelayMs maxDelayMs : Nat) (attempt : Nat) : Nat :=
  min (initialDelayMs * 2 ^ attempt) maxDelayMs

/-- Modelled from the spec: the full streaming pipeline driven by a
chunked byte delivery, as the Fetcher actually hands bytes to the Line
Framer. -/
def runChunked {V : Type} (decode : List Nat → Option V) (start : FileLocation)
    (chunks : List (List Nat)) : List (Record V) × Outcome :=
  decodeAll decode start (frameAllChunked start chunks)

/-- Inverse of the line framer: interleave an LF terminator after every
segment and append the carry buffer. -/
def unsplit (ls : List (List Nat)) (c : List Nat) : List Nat :=
  (ls.map (fun l => l ++ [10])).flatten ++ c

/-- The number of raw input bytes consumed by a list of framed segments,
each including its LF terminator. -/
def rawLen (ls : List (List Nat)) : Nat :=
  (ls.map (fun s => s.length + 1)).sum

/-- The location of the last fully consumed line of a located list, or
the ambient previous location when the list is empty. -/
def lastLoc (prev : FileLocation) (xs : List (List Nat × FileLocation)) : FileLocation :=
  (xs.getLast?.map (fun p => p.2)).getD prev

/-- Strict ordering of file locations in both components. -/
def locLt (a b : FileLocation) : Prop :=
  a.byteOffset < b.byteOffset ∧ a.line < b.line

instance : IsTrans FileLocation locLt :=
  ⟨fun _ _ _ hab hbc => ⟨Nat.lt_trans hab.1 hbc.1, Nat.lt_trans hab.2 hbc.2⟩⟩

/-- Modelled from the spec: the shape of the JavaScript built-in `Error`
that `JsonlStreamError` extends. -/
structure JsError where
  message : String
deriving DecidableEq, Repr

/-- Modelled from the spec (`JsonlStreamError`, missing from the
sources): the one exported error class; it extends the built-in `Error`
and carries the last known safe `location` plus an optional underlying
`cause`.  The extension is modelled as a structure extension, which is
what makes a raised failure distinguishable as this class. -/
structure JsonlStreamError extends JsError where
  location : FileLocation
  cause : Option JsError
deriving DecidableEq, Repr

/-- Construct a `JsonlStreamError` from a message, a location and an
optional underlying cause. -/
def mkStreamError (msg : String) (loc : FileLocation) (cause : Option JsError) :
    JsonlStreamError :=
  { message := msg, location := loc, cause := cause }

/-- Modelled from the spec: normalize the terminal signal of a run into
the raised error object: a clean end raises nothing, a fatal outcome is
raised as a `JsonlStreamError` at the outcome's location. -/
def raiseTerminal {V : Type} (msg : String) (res : List (Record V) × Outcome) :
    List (Record V) × Option JsonlStreamError :=
  (res.1,
    match res.2 with
    | .done => none
    | .error loc => some (mkStreamError msg loc none))

/-- Result of one retry episode of the Range-Aware Fetcher: a successful
attempt, exhaustion of the retry time budget, or exhaustion of the
modelling fuel (unreachable when the fuel covers the budget). -/
inductive RetryResult (A : Type) where
  | ok (value : A) : RetryResult A
  | exhausted : RetryResult A
  | fuelOut : RetryResult A
deriving DecidableEq, Repr

/-- Modelled from the spec (Range-Aware Fetcher retry loop, missing from
the sources): `attemptResult n` is the outcome of the `n`-th request
(`none` = transient failure).  A transient failure is retried after the
backoff delay for the current attempt, with the elapsed retry time
accumulated, until the elapsed time reaches `maxRetryTimeMs`; only then
is exhaustion signalled.  A transient failure is never surfaced as a
result by itself. -/
def retryFetch {A : Type} (initialDelayMs maxDelayMs maxRetryTimeMs : Nat)
    (attemptResult : Nat → Option A) :
    Nat → Nat → Nat → RetryResult A
  | fuel, attempt, elapsed =>
    match attemptResult attempt with
    | some a => .ok a
    | none =>
      if maxRetryTimeMs ≤ elapsed then .exhausted
      else
        match fuel with
        | 0 => .fuelOut
        | f + 1 =>
          retryFetch initialDelayMs maxDelayMs maxRetryTimeMs attemptResult
            f (attempt + 1) (elapsed + nextDelay initialDelayMs maxDelayMs attempt)

/-- Modelled from the spec: exhausting the retry budget converts the
last transient failure into a fatal `JsonlStreamError` carrying the last
safe `FileLocation`; a successful attempt passes through. -/
def escalateExhaustion {A : Type} (lastSafe : FileLocation) :
    RetryResult A → Except JsonlStreamError A
  | .ok a => .ok a
  | .exhausted => .error (mkStreamError "retry budget exhausted" lastSafe none)
  | .fuelOut => .error (mkStreamError "retry budget exhausted" lastSafe none)

/-- The first line of spec Scenario A, the byte encoding of a seven
character JSON object text. -/
def lineA1 : List Nat := [123, 34, 97, 34, 58, 49, 125]

/-- The second line of spec Scenario A. -/
def lineA2 : List Nat := [123, 34, 98, 34, 58, 50, 125]

/-- The full Scenario A input: both lines, each LF-terminated. -/
def inputA : List Nat := lineA1 ++ [10] ++ lineA2 ++ [10]

/-- A concrete decoder that accepts every line, used to instantiate the
decode parameter in witnesses. -/
def decodeId : List Nat → Option (List Nat) := fun l => some l

/-- The malformed line of spec Scenario D, the byte encoding of a
truncated JSON object text. -/
def badLineD : List Nat := [123, 34, 97, 34, 58]

/-- The full Scenario D input: a good first line then the malformed
line. -/
def inputD : List Nat := lineA1 ++ [10] ++ badLineD

/-- A concrete decoder that fails exactly on the Scenario D malformed
line. -/
def decodeD : List Nat → Option (List Nat) :=
  fun l => if l = badLineD then none else some l

lemma unsplit_nil (c : List Nat) : unsplit [] c = c := by
  simp [unsplit]

lemma unsplit_cons (l : List Nat) (ls : List (List Nat)) (c : List Nat) :
    unsplit (l :: ls) c = l ++ 10 :: unsplit ls c := by
  simp [unsplit]

lemma unsplit_splitOnNewline (bs : List Nat) :
    unsplit (splitOnNewline bs).1 (splitOnNewline bs).2 = bs := by
  induction bs with
  | nil => rfl
  | cons b rest ih =>
    by_cases hb : b = 10
    · subst hb
      rcases hr : splitOnNewline rest with ⟨ls, c⟩
      rw [hr] at ih
      simp [splitOnNewline, hr, unsplit_cons, ih]
    · rcases hr : splitOnNewline rest with ⟨ls, c⟩
      rw [hr] at ih
      cases ls with
      | nil =>
        simp only [unsplit_nil] at ih
        simp [splitOnNewline, hr, hb, pushByte, unsplit_nil, ih]
      | cons l ls' =>
        simp only [unsplit_cons] at ih
        simp [splitOnNewline, hr, hb, pushByte, unsplit_cons, ih]

lemma nl_not_mem_carry (bs : List Nat) : 10 ∉ (splitOnNewline bs).2 := by
  induction bs with
  | nil => simp [splitOnNewline]
  | cons b rest ih =>
    by_cases hb : b = 10
    · subst hb; simpa [splitOnNewline] using ih
    · rcases hr : splitOnNewline rest with ⟨ls, c⟩
      rw [hr] at ih
      cases ls with
      | nil =>
        simp only at ih
        simp [splitOnNewline, hr, hb, pushByte]
        exact ⟨fun h => hb h.symm, ih⟩
      | cons l ls' => simpa [splitOnNewline, hr, hb, pushByte] using ih

lemma nl_not_mem_seg (bs : List Nat) :
    ∀ l ∈ (splitOnNewline bs).1, 10 ∉ l := by
  induction bs with
  | nil => simp [splitOnNewline]
  | cons b rest ih =>
    rcases hr : splitOnNewline rest with ⟨ls, c⟩
    rw [hr] at ih
    simp only at ih
    by_cases hb : b = 10
    · subst hb
      intro l hl
      simp [splitOnNewline, hr] at hl
      rcases hl with hl | hl
      · subst hl; simp
      · exact ih l hl
    · cases ls with
      | nil =>
        intro l hl
        simp [splitOnNewline, hr, hb, pushByte] at hl
      | cons l0 ls' =>
        intro l hl
        simp [splitOnNewline, hr, hb, pushByte] at hl
        rcases hl with hl | hl
        · subst hl
          intro hmem
          rcases List.mem_cons.mp hmem with h10 | hmem
          · exact hb h10.symm
          · exact ih l0 (by simp) hmem
        · exact ih l (by simp [hl])

lemma splitOnNewline_noNL (c : List Nat) (h : 10 ∉ c) : splitOnNewline c = ([], c) := by
  induction c with
  | nil => rfl
  | cons b rest ih =>
    have hb : ¬b = 10 := fun hE => h (by simp [hE])
    have hrest : 10 ∉ rest := fun hm => h (by simp [hm])
    simp [splitOnNewline, hb, ih hrest, pushByte]

lemma splitOnNewline_seg (l rest : List Nat) (h : 10 ∉ l) :
    splitOnNewline (l ++ 10 :: rest)
      = (l :: (splitOnNewline rest).1, (splitOnNewline rest).2) := by
  induction l with
  | nil => simp [splitOnNewline]
  | cons b l' ih =>
    have hb : ¬b = 10 := fun hE => h (by simp [hE])
    have hl' : 10 ∉ l' := fun hm => h (by simp [hm])
    simp [splitOnNewline, hb, ih hl', pushByte]

lemma splitOnNewline_unsplit (ls : List (List Nat)) (c : List Nat)
    (hls : ∀ l ∈ ls, 10 ∉ l) (hc : 10 ∉ c) :
    splitOnNewline (unsplit ls c) = (ls, c) := by
  induction ls with
  | nil => simpa [unsplit_nil] using splitOnNewline_noNL c hc
  | cons l ls' ih =>
    have h1 : 10 ∉ l := hls l (by simp)
    have h2 : ∀ x ∈ ls', 10 ∉ x := fun x hx => hls x (by simp [hx])
    rw [unsplit_cons, splitOnNewline_seg l (unsplit ls' c) h1, ih h2]

lemma unsplit_append (xs ys : List (List Nat)) (c : List Nat) :
    unsplit (xs ++ ys) c = unsplit xs [] ++ unsplit ys c := by
  simp [unsplit]

lemma unsplit_nil_length (xs : List (List Nat)) :
    (unsplit xs []).length = rawLen xs := by
  induction xs with
  | nil => rfl
  | cons x xs' ih =>
    simp only [unsplit, List.map_cons, List.flatten_cons, List.append_nil] at *
    simp [rawLen, List.length_append] at *
    omega

lemma unsplit_length (xs : List (List Nat)) (c : List Nat) :
    (unsplit xs c).length = rawLen xs + c.length := by
  have : unsplit xs c = unsplit xs [] ++ c := by simp [unsplit]
  rw [this, List.length_append, unsplit_nil_length]

lemma locateSegs_length (start : FileLocation) (xs : List (List Nat)) :
    (locateSegs start xs).1.length = xs.length := by
  induction xs generalizing start with
  | nil => rfl
  | cons s ss ih => simp [locateSegs, ih]

lemma locateSegs_endLoc (start : FileLocation) (xs : List (List Nat)) :
    (locateSegs start xs).2
      = ⟨start.byteOffset + rawLen xs, start.line + xs.length⟩ := by
  induction xs generalizing start with
  | nil => simp [locateSegs, rawLen]
  | cons s ss ih =>
    simp only [locateSegs, ih, rawLen, List.map_cons, List.sum_cons, List.length_cons]
    congr 1 <;> omega

lemma locateSegs_get (start : FileLocation) (xs : List (List Nat)) (i : Nat)
    (p : List Nat × FileLocation) (h : (locateSegs start xs).1.get? i = some p) :
    p.2 = (locateSegs start (xs.take (i + 1))).2 ∧
    (locateSegs start xs).1.drop (i + 1) = (locateSegs p.2 (xs.drop (i + 1))).1 ∧
    (locateSegs start xs).2 = (locateSegs p.2 (xs.drop (i + 1))).2 := by
  induction xs generalizing start i with
  | nil => simp [locateSegs] at h
  | cons s ss ih =>
    cases i with
    | zero =>
      simp only [locateSegs, List.get?_cons_zero, Option.some.injEq] at h
      subst h
      simp [locateSegs]
    | succ i' =>
      simp only [locateSegs, List.get?_cons_succ] at h
      have := ih ⟨start.byteOffset + s.length + 1, start.line + 1⟩ i' h
      simpa [locateSegs] using this

lemma splitOnNewline_append (a b : List Nat) :
    splitOnNewline (a ++ b)
      = ((splitOnNewline a).1 ++ (splitOnNewline ((splitOnNewline a).2 ++ b)).1,
         (splitOnNewline ((splitOnNewline a).2 ++ b)).2) := by
  induction a with
  | nil => simp [splitOnNewline]
  | cons x a' ih =>
    by_cases hx : x = 10
    · subst hx
      simp [splitOnNewline, ih]
    · rcases hr : splitOnNewline a' with ⟨ls, c⟩
      rw [hr] at ih
      cases ls with
      | nil =>
        have : (x :: a') ++ b = x :: (a' ++ b) := rfl
        rw [this]
        simp only [splitOnNewline, hx, if_neg hx, hr, pushByte, ih]
        simp [pushByte]
      | cons l0 ls' =>
        have : (x :: a') ++ b = x :: (a' ++ b) := rfl
        rw [this]
        simp only [splitOnNewline, hx, if_neg hx, hr, pushByte, ih]
        simp [pushByte]

lemma frameChunksCore_eq (chunks : List (List Nat)) :
    ∀ carry, 10 ∉ carry →
      frameChunksCore carry chunks = splitOnNewline (carry ++ chunks.flatten) := by
  induction chunks with
  | nil =>
    intro carry hc
    simp [frameChunksCore, splitOnNewline_noNL carry hc]
  | cons c cs ih =>
    intro carry _
    have hk : 10 ∉ (splitOnNewline (carry ++ c)).2 := nl_not_mem_carry _
    have hIH := ih (splitOnNewline (carry ++ c)).2 hk
    have happ := splitOnNewline_append (carry ++ c) cs.flatten
    simp only [frameChunksCore, hIH]
    rw [show carry ++ (c :: cs).flatten = (carry ++ c) ++ cs.flatten by simp]
    rw [happ]

lemma drop_append_of_le {α : Type} (a b : List α) (n : Nat) (h : n ≤ a.length) :
    (a ++ b).drop n = a.drop n ++ b := by
  rw [List.drop_append_eq_append_drop]
  simp [Nat.sub_eq_zero_of_le h]

lemma frameAll_nil (start : FileLocation) : frameAll start [] = [] := rfl

lemma frameAll_get (start : FileLocation) (bs : List Nat) (i : Nat)
    (p : List Nat × FileLocation) (h : (frameAll start bs).get? i = some p) :
    p.2.line = start.line + i + 1 ∧
    frameAll p.2 (bs.drop (p.2.byteOffset - start.byteOffset))
      = (frameAll start bs).drop (i + 1) := by
  rcases hs : splitOnNewline bs with ⟨segs, carry⟩
  have hbs : unsplit segs carry = bs := by
    have := unsplit_splitOnNewline bs
    rwa [hs] at this
  have hseg : ∀ l ∈ segs, 10 ∉ l := by
    have := nl_not_mem_seg bs
    rwa [hs] at this
  have hcarry : 10 ∉ carry := by
    have := nl_not_mem_carry bs
    rwa [hs] at this
  have hsplitbs : bs = unsplit (segs.take (i + 1)) [] ++ unsplit (segs.drop (i + 1)) carry := by
    conv_lhs => rw [← hbs]
    rw [← unsplit_append, List.take_append_drop]
  have hdropgen : bs.drop (rawLen (segs.take (i + 1))) = unsplit (segs.drop (i + 1)) carry := by
    rw [hsplitbs, ← unsplit_nil_length (segs.take (i + 1))]
    exact List.drop_left _ _
  have hsplit2 : splitOnNewline (unsplit (segs.drop (i + 1)) carry)
      = (segs.drop (i + 1), carry) :=
    splitOnNewline_unsplit _ _
      (fun l hl => hseg l (List.drop_subset _ _ hl)) hcarry
  have hframe : frameAll start bs = withCarry (locateSegs start segs) carry := by
    simp [frameAll, hs]
  rw [hframe] at h ⊢
  by_cases hc : carry = []
  · -- no trailing carry line
    subst hc
    rw [withCarry, if_pos rfl] at h ⊢
    obtain ⟨hA, hB, _hC⟩ := locateSegs_get start segs i p h
    have hilen : i < segs.length := by
      have := (List.get?_eq_some.mp h).1
      rwa [locateSegs_length] at this
    have htlen : (segs.take (i + 1)).length = i + 1 := by
      simp [List.length_take]; omega
    have hend := locateSegs_endLoc start (segs.take (i + 1))
    have hboff : p.2.byteOffset = start.byteOffset + rawLen (segs.take (i + 1)) := by
      rw [hA, hend]
    have hline : p.2.line = start.line + i + 1 := by
      rw [hA, hend]
      show start.line + (segs.take (i + 1)).length = start.line + i + 1
      rw [htlen]
      omega
    have hsub : p.2.byteOffset - start.byteOffset = rawLen (segs.take (i + 1)) := by
      omega
    refine ⟨hline, ?_⟩
    rw [hsub, hdropgen]
    simp only [frameAll, hsplit2]
    rw [withCarry, if_pos rfl, ← hB]
  · -- trailing carry line present
    rw [withCarry, if_neg hc] at h ⊢
    have hAlen : (locateSegs start segs).1.length = segs.length := locateSegs_length _ _
    by_cases hi : i < segs.length
    · -- a real segment line
      have hgi : (locateSegs start segs).1.get? i = some p := by
        have heq : ((locateSegs start segs).1
              ++ [(carry, (⟨(locateSegs start segs).2.byteOffset + carry.length,
                (locateSegs start segs).2.line + 1⟩ : FileLocation))]).get? i
            = (locateSegs start segs).1.get? i :=
          List.get?_append (by omega)
        rw [heq] at h
        exact h
      obtain ⟨hA, hB, hC⟩ := locateSegs_get start segs i p hgi
      have htlen : (segs.take (i + 1)).length = i + 1 := by
        simp [List.length_take]; omega
      have hend := locateSegs_endLoc start (segs.take (i + 1))
      have hboff : p.2.byteOffset = start.byteOffset + rawLen (segs.take (i + 1)) := by
        rw [hA, hend]
      have hline : p.2.line = start.line + i + 1 := by
        rw [hA, hend]
        show start.line + (segs.take (i + 1)).length = start.line + i + 1
        rw [htlen]
        omega
      have hsub : p.2.byteOffset - start.byteOffset = rawLen (segs.take (i + 1)) := by
        omega
      refine ⟨hline, ?_⟩
      rw [hsub, hdropgen]
      simp only [frameAll, hsplit2]
      rw [withCarry, if_neg hc]
      rw [drop_append_of_le _ _ (i + 1) (by omega)]
      rw [← hB, ← hC]
    · -- the carry line itself
      have hlen : i < segs.length + 1 := by
        have := (List.get?_eq_some.mp h).1
        simpa [hAlen] using this
      have hieq : i = segs.length := by omega
      subst hieq
      have hp : p = (carry, ⟨(locateSegs start segs).2.byteOffset + carry.length,
          (locateSegs start segs).2.line + 1⟩) := by
        rw [← hAlen, List.get?_concat_length] at h
        exact (Option.some.inj h).symm
      have hend := locateSegs_endLoc start segs
      have hline : p.2.line = start.line + segs.length + 1 := by
        rw [hp]
        show (locateSegs start segs).2.line + 1 = start.line + segs.length + 1
        rw [hend]
      have hboff : p.2.byteOffset = start.byteOffset + rawLen segs + carry.length := by
        rw [hp]
        show (locateSegs start segs).2.byteOffset + carry.length
          = start.byteOffset + rawLen segs + carry.length
        rw [hend]
      have hsub : p.2.byteOffset - start.byteOffset = rawLen segs + carry.length := by
        omega
      have hblen : bs.length = rawLen segs + carry.length := by
        rw [← hbs, unsplit_length]
      refine ⟨hline, ?_⟩
      rw [hsub, ← hblen, List.drop_length, frameAll_nil]
      symm
      apply List.drop_eq_nil_of_le
      simp [hAlen]

lemma frameAll_dropWhile_self (s : FileLocation) (x : List Nat) :
    (frameAll s x).dropWhile (fun p => p.2.line ≤ s.line) = frameAll s x := by
  cases hf : frameAll s x with
  | nil => rfl
  | cons hd tl =>
    have hline : hd.2.line = s.line + 0 + 1 := by
      have := frameAll_get s x 0 hd (by rw [hf]; rfl)
      exact this.1
    rw [List.dropWhile_cons]
    have hnot : ¬(hd.2.line ≤ s.line) := by omega
    simp [hnot]

lemma dropWhile_line_le_drop :
    ∀ (xs : List (List Nat × FileLocation)) (b n m : Nat), m = b + n →
      (∀ j p, xs.get? j = some p → p.2.line = b + j + 1) →
      xs.dropWhile (fun p => p.2.line ≤ m) = xs.drop n := by
  intro xs
  induction xs with
  | nil => intro b n m _ _; simp
  | cons hd tl ih =>
    intro b n m hm hcons
    have hhd : hd.2.line = b + 1 := by
      have := hcons 0 hd rfl
      omega
    cases n with
    | zero =>
      have hnot : ¬(hd.2.line ≤ m) := by omega
      rw [List.dropWhile_cons, if_neg (by simpa using hnot)]
      rfl
    | succ n' =>
      rw [List.dropWhile_cons]
      have hle : hd.2.line ≤ m := by omega
      have htl : ∀ j p, tl.get? j = some p → p.2.line = (b + 1) + j + 1 := by
        intro j p hp
        have := hcons (j + 1) p (by simpa using hp)
        omega
      have hih := ih (b + 1) n' m (by omega) htl
      rw [if_pos (by simpa using hle)]
      rw [hih]
      rfl

lemma decodeAll_nil {V : Type} (decode : List Nat → Option V) (prev : FileLocation) :
    decodeAll decode prev [] = ([], .done) := rfl

lemma decodeAll_resume {V : Type} (decode : List Nat → Option V) :
    ∀ (located : List (List Nat × FileLocation)) (prev : FileLocation)
      (k : Nat) (r : Record V),
      (decodeAll decode prev located).1.get? k = some r →
      ∃ i p, located.get? i = some p ∧ p.2 = r.location ∧
        decodeAll decode p.2 (located.drop (i + 1))
          = ((decodeAll decode prev located).1.drop (k + 1),
             (decodeAll decode prev located).2) := by
  intro located
  induction located with
  | nil =>
    intro prev k r h
    simp [decodeAll] at h
  | cons hd tl ih =>
    intro prev k r h
    rcases hd with ⟨l, loc⟩
    by_cases hl : l = []
    · rw [show decodeAll decode prev ((l, loc) :: tl) = decodeAll decode loc tl by
        simp [decodeAll, hl]] at h ⊢
      obtain ⟨i, p, h1, h2, h3⟩ := ih loc k r h
      exact ⟨i + 1, p, by simpa using h1, h2, by simpa using h3⟩
    · cases hdec : decode l with
      | none =>
        rw [show decodeAll decode prev ((l, loc) :: tl) = ([], .error prev) by
          simp [decodeAll, hl, hdec]] at h
        simp at h
      | some v =>
        rw [show decodeAll decode prev ((l, loc) :: tl)
            = (⟨v, loc⟩ :: (decodeAll decode loc tl).1, (decodeAll decode loc tl).2) by
          simp [decodeAll, hl, hdec]] at h ⊢
        cases k with
        | zero =>
          simp only [List.get?_cons_zero, Option.some.injEq] at h
          refine ⟨0, (l, loc), rfl, ?_, ?_⟩
          · rw [← h]
          · simp
        | succ k' =>
          simp only [List.get?_cons_succ] at h
          obtain ⟨i, p, h1, h2, h3⟩ := ih loc k' r h
          exact ⟨i + 1, p, by simpa using h1, h2, by simpa using h3⟩

lemma streamJsonl_resume {V : Type} (decode : List Nat → Option V) (bs : List Nat)
    (rangeSupported : Bool) (k : Nat) (r : Record V)
    (hk : (run decode ⟨0, 0⟩ bs).1.get? k = some r) :
    streamJsonl decode (some r.location) rangeSupported bs
      = ((run decode ⟨0, 0⟩ bs).1.drop (k + 1), (run decode ⟨0, 0⟩ bs).2) := by
  obtain ⟨i, p, hp, hploc, hres⟩ :=
    decodeAll_resume decode (frameAll ⟨0, 0⟩ bs) ⟨0, 0⟩ k r hk
  obtain ⟨hline, hframe⟩ := frameAll_get ⟨0, 0⟩ bs i p hp
  have hline' : p.2.line = i + 1 := by simpa using hline
  have hframe' : frameAll p.2 (bs.drop p.2.byteOffset) = (frameAll ⟨0, 0⟩ bs).drop (i + 1) := by
    simpa using hframe
  rw [← hploc]
  cases rangeSupported with
  | true =>
    show decodeAll decode p.2
        ((frameAll p.2 (bs.drop p.2.byteOffset)).dropWhile (fun q => q.2.line ≤ p.2.line))
      = _
    rw [frameAll_dropWhile_self, hframe']
    exact hres
  | false =>
    show decodeAll decode p.2
        ((frameAll ⟨0, 0⟩ bs).dropWhile (fun q => q.2.line ≤ p.2.line)) = _
    have hcons : ∀ j q, (frameAll ⟨0, 0⟩ bs).get? j = some q → q.2.line = 0 + j + 1 := by
      intro j q hq
      have := (frameAll_get ⟨0, 0⟩ bs j q hq).1
      simpa using this
    rw [dropWhile_line_le_drop (frameAll ⟨0, 0⟩ bs) 0 (i + 1) p.2.line (by omega) hcons]
    exact hres

lemma frameAllChunked_eq (start : FileLocation) (chunks : List (List Nat)) :
    frameAllChunked start chunks = frameAll start chunks.flatten := by
  have h := frameChunksCore_eq chunks [] (by simp)
  simp only [List.nil_append] at h
  simp [frameAllChunked, frameAll, h]

lemma lastLoc_cons (prev : FileLocation) (a : List Nat × FileLocation)
    (xs : List (List Nat × FileLocation)) :
    lastLoc prev (a :: xs) = lastLoc a.2 xs := by
  cases xs with
  | nil => simp [lastLoc]
  | cons x xs' =>
    obtain ⟨y, hy⟩ : ∃ y, (x :: xs').getLast? = some y :=
      ⟨(x :: xs').getLast (by simp), List.getLast?_eq_getLast _ _⟩
    simp [lastLoc, List.getLast?_cons_cons, hy]

lemma decodeAll_error_at {V : Type} (decode : List Nat → Option V) :
    ∀ (pre : List (List Nat × FileLocation)) (start : FileLocation)
      (l : List Nat) (loc : FileLocation) (rest : List (List Nat × FileLocation)),
      (∀ p ∈ pre, p.1 = [] ∨ (decode p.1).isSome = true) →
      l ≠ [] → decode l = none →
      (decodeAll decode start (pre ++ (l, loc) :: rest)).2 = .error (lastLoc start pre) := by
  intro pre
  induction pre with
  | nil =>
    intro start l loc rest _ hl hfail
    simp [decodeAll, hl, hfail, lastLoc]
  | cons q pre' ih =>
    intro start l loc rest hpre hl hfail
    rcases q with ⟨ql, qloc⟩
    by_cases hql : ql = []
    · rw [show decodeAll decode start (((ql, qloc) :: pre') ++ (l, loc) :: rest)
          = decodeAll decode qloc (pre' ++ (l, loc) :: rest) by simp [decodeAll, hql]]
      rw [ih qloc l loc rest (fun p hp => hpre p (by simp [hp])) hl hfail, lastLoc_cons]
    · have hq : (decode ql).isSome = true := by
        rcases hpre (ql, qloc) (by simp) with h | h
        · exact absurd h hql
        · exact h
      obtain ⟨v, hv⟩ := Option.isSome_iff_exists.mp hq
      rw [show decodeAll decode start (((ql, qloc) :: pre') ++ (l, loc) :: rest)
          = (⟨v, qloc⟩ :: (decodeAll decode qloc (pre' ++ (l, loc) :: rest)).1,
             (decodeAll decode qloc (pre' ++ (l, loc) :: rest)).2) by
        simp [decodeAll, hql, hv]]
      rw [lastLoc_cons]
      exact ih qloc l loc rest (fun p hp => hpre p (by simp [hp])) hl hfail

lemma nextDelay_pos (initD maxD a : Nat) (hinit : 1 ≤ initD) (hmaxD : 1 ≤ maxD) :
    1 ≤ nextDelay initD maxD a := by
  have h2 : 0 < 2 ^ a := Nat.two_pow_pos a
  have h3 : 0 < initD * 2 ^ a := Nat.mul_pos (by omega) h2
  rw [nextDelay]
  omega

lemma retryFetch_exhausts {A : Type} (initD maxD maxT : Nat)
    (hinit : 1 ≤ initD) (hmaxD : 1 ≤ maxD) :
    ∀ (fuel attempt elapsed : Nat), maxT ≤ elapsed + fuel →
      retryFetch initD maxD maxT (fun _ => (none : Option A)) fuel attempt elapsed
        = .exhausted := by
  intro fuel
  induction fuel with
  | zero =>
    intro attempt elapsed h
    have he : maxT ≤ elapsed := by omega
    simp [retryFetch, he]
  | succ f ih =>
    intro attempt elapsed h
    by_cases he : maxT ≤ elapsed
    · simp [retryFetch, he]
    · have hstep : retryFetch initD maxD maxT (fun _ => (none : Option A))
          (f + 1) attempt elapsed
        = retryFetch initD maxD maxT (fun _ => (none : Option A))
            f (attempt + 1) (elapsed + nextDelay initD maxD attempt) := by
        simp [retryFetch, he]
      rw [hstep]
      have hd : 1 ≤ nextDelay initD maxD attempt := nextDelay_pos _ _ _ hinit hmaxD
      exact ih (attempt + 1) _ (by omega)

lemma locateSegs_chain (segs : List (List Nat)) :
    ∀ start : FileLocation,
      List.Chain' locLt (start :: (locateSegs start segs).1.map (fun p => p.2)) ∧
      (start :: (locateSegs start segs).1.map (fun p => p.2)).getLast?
        = some (locateSegs start segs).2 := by
  induction segs with
  | nil =>
    intro start
    exact ⟨by simp [locateSegs], by simp [locateSegs]⟩
  | cons s ss ih =>
    intro start
    obtain ⟨hch, hlast⟩ := ih ⟨start.byteOffset + s.length + 1, start.line + 1⟩
    have hunfold : (locateSegs start (s :: ss)).1
        = (stripCR s, (⟨start.byteOffset + s.length + 1, start.line + 1⟩ : FileLocation))
          :: (locateSegs ⟨start.byteOffset + s.length + 1, start.line + 1⟩ ss).1 := by
      simp [locateSegs]
    have hunfold2 : (locateSegs start (s :: ss)).2
        = (locateSegs ⟨start.byteOffset + s.length + 1, start.line + 1⟩ ss).2 := by
      simp [locateSegs]
    rw [hunfold, hunfold2]
    constructor
    · simp only [List.map_cons]
      rw [List.chain'_cons]
      refine ⟨⟨?_, ?_⟩, hch⟩
      · show start.byteOffset < start.byteOffset + s.length + 1
        omega
      · show start.line < start.line + 1
        omega
    · simp only [List.map_cons]
      rw [List.getLast?_cons_cons]
      exact hlast

lemma frameAll_chain (start : FileLocation) (bs : List Nat) :
    List.Chain' locLt (start :: (frameAll start bs).map (fun p => p.2)) := by
  rcases hs : splitOnNewline bs with ⟨segs, carry⟩
  have hframe : frameAll start bs = withCarry (locateSegs start segs) carry := by
    simp [frameAll, hs]
  rw [hframe]
  obtain ⟨hch, hlast⟩ := locateSegs_chain segs start
  by_cases hc : carry = []
  · rw [withCarry, if_pos hc]
    exact hch
  · rw [withCarry, if_neg hc]
    have hsplit : start :: ((locateSegs start segs).1
          ++ [(carry, (⟨(locateSegs start segs).2.byteOffset + carry.length,
              (locateSegs start segs).2.line + 1⟩ : FileLocation))]).map (fun p => p.2)
        = (start :: (locateSegs start segs).1.map (fun p => p.2))
          ++ [(⟨(locateSegs start segs).2.byteOffset + carry.length,
              (locateSegs start segs).2.line + 1⟩ : FileLocation)] := by
      simp
    rw [hsplit, List.chain'_append]
    refine ⟨hch, by simp, ?_⟩
    intro x hx y hy
    rw [hlast] at hx
    simp only [Option.mem_def, Option.some.injEq] at hx
    simp only [List.head?_cons, Option.mem_def, Option.some.injEq] at hy
    subst hx
    subst hy
    have hclen : 0 < carry.length := List.length_pos.mpr hc
    refine ⟨?_, ?_⟩
    · show (locateSegs start segs).2.byteOffset
        < (locateSegs start segs).2.byteOffset + carry.length
      omega
    · show (locateSegs start segs).2.line < (locateSegs start segs).2.line + 1
      omega

lemma decodeAll_loc_sublist {V : Type} (decode : List Nat → Option V) :
    ∀ (located : List (List Nat × FileLocation)) (prev : FileLocation),
      ((decodeAll decode prev located).1.map (fun r => r.location)).Sublist
        (located.map (fun p => p.2)) := by
  intro located
  induction located with
  | nil => intro prev; simp [decodeAll]
  | cons hd tl ih =>
    intro prev
    rcases hd with ⟨l, loc⟩
    by_cases hl : l = []
    · rw [show decodeAll decode prev ((l, loc) :: tl) = decodeAll decode loc tl by
        simp [decodeAll, hl]]
      exact (ih loc).cons _
    · cases hdec : decode l with
      | none =>
        rw [show decodeAll decode prev ((l, loc) :: tl) = ([], .error prev) by
          simp [decodeAll, hl, hdec]]
        simp
      | some v =>
        rw [show decodeAll decode prev ((l, loc) :: tl)
            = (⟨v, loc⟩ :: (decodeAll decode loc tl).1, (decodeAll decode loc tl).2) by
          simp [decodeAll, hl, hdec]]
        simp only [List.map_cons]
        exact (ih loc).cons₂ _

/-- Claim C9: streaming an empty resource (zero input bytes) yields a
sequence with zero records and terminates normally with no error. -/
theorem empty_input_zero_records {V : Type} (decode : List Nat → Option V)
    (rangeSupported : Bool) :
    streamJsonl decode none rangeSupported [] = ([], .done) := rfl

/-- Claim C4: for every attempt count and fixed configuration,
`nextDelay` is the deterministic value `initialDelayMs * 2 ^ attempt`
capped at `maxDelayMs`; consequently it is non-decreasing in the attempt
count and never exceeds `maxDelayMs`. -/
theorem backoff_monotone_capped (initialDelayMs maxDelayMs a b : Nat) (hab : a ≤ b) :
    nextDelay initialDelayMs maxDelayMs a = min (initialDelayMs * 2 ^ a) maxDelayMs ∧
    nextDelay initialDelayMs maxDelayMs a ≤ nextDelay initialDelayMs maxDelayMs b ∧
    nextDelay initialDelayMs maxDelayMs b ≤ maxDelayMs := by
  refine ⟨rfl, ?_, ?_⟩
  · rw [nextDelay, nextDelay]
    exact min_le_min
      (Nat.mul_le_mul (le_refl initialDelayMs) (Nat.pow_le_pow_right (by omega) hab))
      (le_refl maxDelayMs)
  · rw [nextDelay]
    exact min_le_right _ _

/-- Witness for claim C4 at a concrete configuration and attempt pair. -/
theorem backoff_monotone_capped_witness :
    1 ≤ 3 ∧
    (nextDelay 1000 30000 1 = min (1000 * 2 ^ 1) 30000 ∧
     nextDelay 1000 30000 1 ≤ nextDelay 1000 30000 3 ∧
     nextDelay 1000 30000 3 ≤ 30000) :=
  ⟨by decide, backoff_monotone_capped 1000 30000 1 3 (by decide)⟩

/-- Claim C3: feeding any chunked delivery of a byte stream to the Line
Framer produces exactly the same located lines — LF-delimited, CRLF
tolerated, fragments carried across chunk boundaries in the internal
buffer — as framing the unsplit stream in one piece.  Quantifying over
`chunks` covers every split of the stream at every byte boundary. -/
theorem frame_chunk_invariance (start : FileLocation) (chunks : List (List Nat)) :
    frameAllChunked start chunks = frameAll start chunks.flatten :=
  frameAllChunked_eq start chunks

/-- Claim C2: for a fixed input byte stream with no injected faults the
streamed sequence of records is a function of the bytes alone: any two
deliveries of the same bytes — in particular replaying the identical
stream from byte 0 — yield the identical ordered list of value/location
pairs and the identical sequence of `FileLocation` values. -/
theorem stream_determinism {V : Type} (decode : List Nat → Option V)
    (chunks1 chunks2 : List (List Nat)) (h : chunks1.flatten = chunks2.flatten) :
    runChunked decode ⟨0, 0⟩ chunks1 = runChunked decode ⟨0, 0⟩ chunks2 ∧
    (runChunked decode ⟨0, 0⟩ chunks1).1.map (fun r => r.location)
      = (runChunked decode ⟨0, 0⟩ chunks2).1.map (fun r => r.location) := by
  have h1 : runChunked decode ⟨0, 0⟩ chunks1 = run decode ⟨0, 0⟩ chunks1.flatten := by
    rw [runChunked, run, frameAllChunked_eq]
  have h2 : runChunked decode ⟨0, 0⟩ chunks2 = run decode ⟨0, 0⟩ chunks2.flatten := by
    rw [runChunked, run, frameAllChunked_eq]
  constructor
  · rw [h1, h2, h]
  · rw [h1, h2, h]

/-- Witness for claim C2: two different chunkings of the same bytes. -/
theorem stream_determinism_witness :
    ([[97, 10], [98]] : List (List Nat)).flatten = ([[97], [10, 98]] : List (List Nat)).flatten ∧
    (runChunked decodeId ⟨0, 0⟩ [[97, 10], [98]] = runChunked decodeId ⟨0, 0⟩ [[97], [10, 98]] ∧
     (runChunked decodeId ⟨0, 0⟩ [[97, 10], [98]]).1.map (fun r => r.location)
       = (runChunked decodeId ⟨0, 0⟩ [[97], [10, 98]]).1.map (fun r => r.location)) :=
  ⟨by decide, stream_determinism decodeId [[97, 10], [98]] [[97], [10, 98]] (by decide)⟩

/-- Claim C8: within one invocation the locations attached to yielded
records are strictly ascending in both `byteOffset` and `line`, and the
tracked location never decreases from the starting location of the
stream. -/
theorem record_locations_ascending {V : Type} (decode : List Nat → Option V)
    (start : FileLocation) (bs : List Nat) :
    List.Chain' locLt (start :: (run decode start bs).1.map (fun r => r.location)) := by
  have hchain := frameAll_chain start bs
  have hsub := decodeAll_loc_sublist decode (frameAll start bs) start
  exact hchain.sublist (hsub.cons₂ start)

/-- Counterexample for claim C5 as stated: the Scenario A input string
has 16 bytes, not 17, and the second record's location is byte offset
16, not 17. -/
theorem scenarioA_byte17_refuted :
    inputA.length = 16 ∧
    (run decodeId ⟨0, 0⟩ inputA).1.map (fun r => r.location)
      = [⟨8, 1⟩, ⟨16, 2⟩] ∧
    ¬ ((run decodeId ⟨0, 0⟩ inputA).1.map (fun r => r.location)
      = [⟨8, 1⟩, ⟨17, 2⟩]) := by decide

/-- Claim C5 (amended): streaming the plain 16-byte Scenario A input
yields exactly two records, in order, whose locations are byte offset 8
line 1 and byte offset 16 line 2 — each the position immediately after
its line was fully consumed — for any decoder accepting the two lines. -/
theorem scenarioA_amended {V : Type} (decode : List Nat → Option V) (v1 v2 : V)
    (h1 : decode lineA1 = some v1) (h2 : decode lineA2 = some v2) :
    run decode ⟨0, 0⟩ inputA
      = ([⟨v1, ⟨8, 1⟩⟩, ⟨v2, ⟨16, 2⟩⟩], .done) := by
  have hf : frameAll ⟨0, 0⟩ inputA = [(lineA1, ⟨8, 1⟩), (lineA2, ⟨16, 2⟩)] := by decide
  rw [run, hf]
  have hl1 : lineA1 ≠ [] := by decide
  have hl2 : lineA2 ≠ [] := by decide
  simp [decodeAll, hl1, hl2, h1, h2]

/-- Witness for the amended claim C5 with a concrete decoder. -/
theorem scenarioA_amended_witness :
    decodeId lineA1 = some lineA1 ∧ decodeId lineA2 = some lineA2 ∧
    run decodeId ⟨0, 0⟩ inputA
      = ([⟨lineA1, ⟨8, 1⟩⟩, ⟨lineA2, ⟨16, 2⟩⟩], .done) :=
  ⟨rfl, rfl, scenarioA_amended decodeId lineA1 lineA2 rfl rfl⟩

/-- Claim C1: if consumption of a stream stops after the record at index
`k` and a new stream is started with the last yielded location as
`startingLocation` — whether or not the server supports range requests —
then the records yielded before the stop concatenated with the records
of the resumed stream are exactly the records of an uninterrupted run
over the same input, with no record missing and no line duplicated (in
particular at most the boundary line duplicated), and the resumed stream
ends with the same terminal outcome. -/
theorem stream_resumption {V : Type} (decode : List Nat → Option V) (bs : List Nat)
    (rangeSupported : Bool) (k : Nat) (r : Record V)
    (hk : (run decode ⟨0, 0⟩ bs).1.get? k = some r) :
    (run decode ⟨0, 0⟩ bs).1
      = (run decode ⟨0, 0⟩ bs).1.take (k + 1)
        ++ (streamJsonl decode (some r.location) rangeSupported bs).1
    ∧ (streamJsonl decode (some r.location) rangeSupported bs).2
      = (run decode ⟨0, 0⟩ bs).2 := by
  have h := streamJsonl_resume decode bs rangeSupported k r hk
  rw [h]
  exact ⟨(List.take_append_drop (k + 1) _).symm, rfl⟩

/-- Witness for claim C1: stop Scenario A after its first record and
resume from that record's location. -/
theorem stream_resumption_witness :
    (run decodeId ⟨0, 0⟩ inputA).1.get? 0 = some ⟨lineA1, ⟨8, 1⟩⟩ ∧
    ((run decodeId ⟨0, 0⟩ inputA).1
        = (run decodeId ⟨0, 0⟩ inputA).1.take (0 + 1)
          ++ (streamJsonl decodeId
              (some (⟨lineA1, (⟨8, 1⟩ : FileLocation)⟩ : Record (List Nat)).location)
              true inputA).1
      ∧ (streamJsonl decodeId
            (some (⟨lineA1, (⟨8, 1⟩ : FileLocation)⟩ : Record (List Nat)).location)
            true inputA).2
        = (run decodeId ⟨0, 0⟩ inputA).2) :=
  ⟨by decide, stream_resumption decodeId inputA true 0 ⟨lineA1, ⟨8, 1⟩⟩ (by decide)⟩

/-- Claim C6: when a framed line fails JSON decoding the stream raises a
fatal error immediately — the decode stage has no retry path — and the
error's location is the `FileLocation` before the bad line, i.e. the end
of the last fully consumed preceding line (or the starting location when
no line precedes it). -/
theorem decode_failure_error_location {V : Type} (decode : List Nat → Option V)
    (start : FileLocation) (bs : List Nat)
    (pre rest : List (List Nat × FileLocation)) (l : List Nat) (loc : FileLocation)
    (hframe : frameAll start bs = pre ++ (l, loc) :: rest)
    (hpre : ∀ p ∈ pre, p.1 = [] ∨ (decode p.1).isSome = true)
    (hl : l ≠ []) (hfail : decode l = none) :
    (run decode start bs).2 = .error (lastLoc start pre) := by
  rw [run, hframe]
  exact decodeAll_error_at decode pre start l loc rest hpre hl hfail

/-- Witness for claim C6: spec Scenario D, a malformed line 2 raising an
error located at the end of line 1 (byte offset 8, line 1). -/
theorem decode_failure_error_location_witness :
    frameAll ⟨0, 0⟩ inputD = [(lineA1, ⟨8, 1⟩)] ++ (badLineD, ⟨13, 2⟩) :: [] ∧
    (∀ p ∈ [(lineA1, (⟨8, 1⟩ : FileLocation))], p.1 = [] ∨ (decodeD p.1).isSome = true) ∧
    badLineD ≠ [] ∧ decodeD badLineD = none ∧
    (run decodeD ⟨0, 0⟩ inputD).2 = .error (lastLoc ⟨0, 0⟩ [(lineA1, ⟨8, 1⟩)]) ∧
    lastLoc ⟨0, 0⟩ [(lineA1, (⟨8, 1⟩ : FileLocation))] = ⟨8, 1⟩ :=
  ⟨by decide, by decide, by decide, by decide,
   decode_failure_error_location decodeD ⟨0, 0⟩ inputD
     [(lineA1, ⟨8, 1⟩)] [] badLineD ⟨13, 2⟩ (by decide) (by decide) (by decide) (by decide),
   by decide⟩

/-- Claim C7: when transient failures persist, the fetcher's retry loop
never surfaces a transient failure as a result; it keeps retrying until
`maxRetryTimeMs` of accumulated retry time has elapsed, and exactly then
the episode ends in exhaustion, which is converted into a fatal
`JsonlStreamError` carrying the last safe `FileLocation`. -/
theorem transient_exhaustion_escalates {A : Type}
    (initialDelayMs maxDelayMs maxRetryTimeMs fuel attempt elapsed : Nat)
    (lastSafe : FileLocation)
    (hinit : 1 ≤ initialDelayMs) (hmaxD : 1 ≤ maxDelayMs)
    (hfuel : maxRetryTimeMs ≤ elapsed + fuel) :
    retryFetch initialDelayMs maxDelayMs maxRetryTimeMs
        (fun _ => (none : Option A)) fuel attempt elapsed = .exhausted ∧
    escalateExhaustion lastSafe
        (retryFetch initialDelayMs maxDelayMs maxRetryTimeMs
          (fun _ => (none : Option A)) fuel attempt elapsed)
      = .error (mkStreamError "retry budget exhausted" lastSafe none) := by
  have h : retryFetch initialDelayMs maxDelayMs maxRetryTimeMs
      (fun _ => (none : Option A)) fuel attempt elapsed = .exhausted :=
    retryFetch_exhausts initialDelayMs maxDelayMs maxRetryTimeMs hinit hmaxD
      fuel attempt elapsed hfuel
  refine ⟨h, ?_⟩
  rw [h]
  rfl

/-- Witness for claim C7 at a concrete configuration. -/
theorem transient_exhaustion_escalates_witness :
    1 ≤ 1000 ∧ 1 ≤ 30000 ∧ 5 ≤ 0 + 5 ∧
    (retryFetch 1000 30000 5 (fun _ => (none : Option Nat)) 5 0 0 = .exhausted ∧
     escalateExhaustion ⟨8, 1⟩ (retryFetch 1000 30000 5 (fun _ => (none : Option Nat)) 5 0 0)
       = .error (mkStreamError "retry budget exhausted" ⟨8, 1⟩ none)) :=
  ⟨by decide, by decide, by decide,
   transient_exhaustion_escalates 1000 30000 5 5 0 0 ⟨8, 1⟩ (by decide) (by decide) (by decide)⟩

/-- Claim C10: every terminal failure of the stream is raised as a
`JsonlStreamError` — a structure extending the built-in error shape,
which is what an `instanceof`-style check distinguishes — exposing a
`location` field with the failure's `FileLocation` and an optional
`cause` field for the underlying error. -/
theorem terminal_failure_is_stream_error {V : Type} (decode : List Nat → Option V)
    (bs : List Nat) (msg : String) (loc : FileLocation)
    (h : (run decode ⟨0, 0⟩ bs).2 = .error loc) :
    (raiseTerminal msg (run decode ⟨0, 0⟩ bs)).2 = some (mkStreamError msg loc none) ∧
    (mkStreamError msg loc none).location = loc ∧
    (mkStreamError msg loc none).cause = none ∧
    (mkStreamError msg loc none).toJsError.message = msg := by
  refine ⟨?_, rfl, rfl, rfl⟩
  simp [raiseTerminal, h]

/-- Witness for claim C10 on the Scenario D failing input. -/
theorem terminal_failure_is_stream_error_witness :
    (run decodeD ⟨0, 0⟩ inputD).2 = .error ⟨8, 1⟩ ∧
    ((raiseTerminal "stream failed" (run decodeD ⟨0, 0⟩ inputD)).2
        = some (mkStreamError "stream failed" ⟨8, 1⟩ none) ∧
     (mkStreamError "stream failed" (⟨8, 1⟩ : FileLocation) none).location = ⟨8, 1⟩ ∧
     (mkStreamError "stream failed" (⟨8, 1⟩ : FileLocation) none).cause = none ∧
     (mkStreamError "stream failed" (⟨8, 1⟩ : FileLocation) none).toJsError.message
       = "stream failed") :=
  ⟨by decide, terminal_failure_is_stream_error decodeD inputD "stream failed" ⟨8, 1⟩ (by decide)⟩
